import Mathlib

set_option maxRecDepth 100000

/-!
Verification of `xbin2bit` (file `xbit2bin.c`), a Xilinx bitstream-to-binary
transcoder.  The program reads a 256-byte header, scans it for a run of at
least 32 `0xff` dummy bytes followed by one of two 8-byte bus-width
auto-detection patterns, strips everything before the run, pads the emitted
header to a 4-byte boundary with bytes taken from the input, optionally
byte-order swaps every 32-bit word, and then streams the remainder of the
input in 64 KiB chunks, applying the same optional swap.

Byte streams are modelled as `List Nat` (each element a byte value).  The
target platform is little-endian (FreeBSD on Zynq ARM, writing to devcfg(4)),
so the `uint32_t` marker tables compared with `memcmp` are embedded as their
little-endian byte layouts.
-/

/-- In-memory (little-endian) byte layout of
`static uint32_t buswords_noswap[] = { 0x000000bb, 0x11220044 }`. -/
def buswords_noswap : List Nat := [0xbb, 0x00, 0x00, 0x00, 0x44, 0x00, 0x22, 0x11]

/-- In-memory (little-endian) byte layout of
`static uint32_t buswords_swap[] = { 0xbb000000, 0x44002211 }`. -/
def buswords_swap : List Nat := [0x00, 0x00, 0x00, 0xbb, 0x11, 0x22, 0x00, 0x44]

/-- The marker pattern selected by the swap flag the analyzer reports. -/
def markerBytes : Bool → List Nat
  | false => buswords_noswap
  | true => buswords_swap

/-- `#define MAXHDR 256`: number of bytes read to examine the header. -/
def MAXHDR : Nat := 256

/-- The scan loop of `analyze_xilinx_header`:
`for (i = 0; i < MAXHDR - sizeof(buswords_swap); i++) ...`.
`fuel` is the number of loop iterations left, i.e. `248 - i`; the function
returns the values of `i` and `dummies` after the loop exits (by running out
of range or by the `break` taken at a non-`0xff` byte once `dummies >= 32`). -/
def scanAux (hdr : List Nat) : Nat → Nat → Nat → Nat × Nat
  | 0, i, dummies => (i, dummies)
  | fuel + 1, i, dummies =>
    if hdr.getD i 0 = 255 then scanAux hdr fuel (i + 1) (dummies + 1)
    else if 32 ≤ dummies then (i, dummies)
    else scanAux hdr fuel (i + 1) 0

/-- The whole scan loop, started at `i = 0`, `dummies = 0`; the loop bound is
`MAXHDR - sizeof(buswords_swap) = 256 - 8 = 248`. -/
def scanHdr (hdr : List Nat) : Nat × Nat := scanAux hdr 248 0 0

/-- `analyze_xilinx_header(hdr, &do_swap)`: returns `none` for the `-1`
failure result, otherwise `some (strip, do_swap)` where `strip = i - 32`. -/
def analyze_xilinx_header (hdr : List Nat) : Option (Nat × Bool) :=
  let r := scanHdr hdr
  if r.2 < 32 then none
  else if (hdr.drop r.1).take 8 = buswords_noswap then some (r.1 - 32, false)
  else if (hdr.drop r.1).take 8 = buswords_swap then some (r.1 - 32, true)
  else none

/-- `xbit2bin_bswap(datbuf, n)`: byte-order swap of a buffer of `n` bytes.
The C loop `for (i = 0; i * sizeof(uint32_t) < n; i++)` reverses the four
bytes of word `i` while `4 * i < n`, so it processes `⌈n/4⌉` words: a final
partial word (when `n` is not a multiple of 4) is swapped together with the
buffer bytes that lie beyond the `n` requested ones.  The byte reversal per
word is what `bswap32` on a load/store does, independent of host endianness.
The buffer is returned whole; bytes past the processed words are unchanged.
(The C code would read out of bounds if the buffer itself had fewer than
`4 * ⌈n/4⌉` bytes; in that unreachable case we return the buffer unchanged.) -/
def xbit2bin_bswap : List Nat → Nat → List Nat
  | buf, 0 => buf
  | a :: b :: c :: d :: rest, n + 1 => d :: c :: b :: a :: xbit2bin_bswap rest (n + 1 - 4)
  | buf, _ + 1 => buf

/-- `sizeof(datbuf) = 64 * 1024`: the body chunk capacity. -/
def CHUNK : Nat := 65536

/-- The body-copy loop of `xbit2bin` (`for (;;) { n = read(...); ... }`).
`input` is the not-yet-read part of the input stream, `buf` the current
contents of the 64 KiB `datbuf` buffer, which persists across iterations
(a short read leaves bytes from previous iterations, or the initial stale
contents, beyond the bytes just read).  Each iteration reads
`n = min (remaining) CHUNK` bytes into the front of the buffer, byte-swaps
`⌈n/4⌉` words in place when `sw` is set, and writes the first `n` buffer
bytes.  `fuel` bounds the number of iterations; since every iteration with a
non-empty input consumes at least one byte, `fuel = input.length` suffices. -/
def bodyLoopAux (sw : Bool) : Nat → List Nat → List Nat → List Nat
  | 0, _, _ => []
  | fuel + 1, input, buf =>
    if input.isEmpty then []
    else
      let n := min input.length CHUNK
      let buf1 := input.take n ++ buf.drop n
      let buf2 := if sw then xbit2bin_bswap buf1 n else buf1
      buf2.take n ++ bodyLoopAux sw fuel (input.drop n) buf2

/-- The body-copy loop run to completion on the remaining input, starting
from buffer contents `buf`; returns the concatenation of all bytes written. -/
def bodyLoop (sw : Bool) (input buf : List Nat) : List Nat :=
  bodyLoopAux sw input.length input buf

/-- The header stage of `xbit2bin`: read 256 bytes (fail on a short read),
analyze them, strip `strip` leading bytes, read `4 - (n & 3)` further bytes
when the remaining header length `n` is not a multiple of 4 (fail if the
input cannot supply them), and byte-swap the header words when required.
Returns `some (header bytes written, do_swap, remaining input)` or `none`
on the error paths that return `-1` before anything is written. -/
def xbit2binHdr (input : List Nat) : Option (List Nat × Bool × List Nat) :=
  if input.length < MAXHDR then none
  else
    match analyze_xilinx_header (input.take MAXHDR) with
    | none => none
    | some (strip, sw) =>
      let n := MAXHDR - strip
      let rest := input.drop MAXHDR
      if n % 4 = 0 then
        some (if sw then xbit2bin_bswap ((input.take MAXHDR).drop strip) n
              else (input.take MAXHDR).drop strip, sw, rest)
      else if rest.length < 4 - n % 4 then none
      else
        some (if sw then
                xbit2bin_bswap ((input.take MAXHDR).drop strip ++ rest.take (4 - n % 4))
                  (n + (4 - n % 4))
              else (input.take MAXHDR).drop strip ++ rest.take (4 - n % 4),
              sw, rest.drop (4 - n % 4))

/-- `xbit2bin(fin, fout)` as a function of the input byte stream and of the
initial (stale) contents of the 64 KiB body buffer: returns the success flag
(`true` for the `0` return, `false` for `-1`) together with every byte
written to the output stream. -/
def xbit2binRun (input stale : List Nat) : Bool × List Nat :=
  match xbit2binHdr input with
  | none => (false, [])
  | some (h, sw, body) => (true, h ++ bodyLoop sw body stale)

/-- A position `q` of the header at which the scan loop of
`analyze_xilinx_header` can take its `break`: a non-`0xff` byte preceded by
at least 32 consecutive `0xff` bytes. -/
def isBreak (hdr : List Nat) (q : Nat) : Prop :=
  hdr.getD q 0 ≠ 255 ∧ 32 ≤ q ∧ ∀ j < q, q - 32 ≤ j → hdr.getD j 0 = 255

instance (hdr : List Nat) (q : Nat) : Decidable (isBreak hdr q) := by
  unfold isBreak; infer_instance

/-! ### Concrete test vectors

Byte streams used to instantiate and to refute the general statements.
`buswords_noswap`/`buswords_swap` markers are placed after `0xff` runs of
various lengths and positions. -/

/-- A 256-byte input whose header is valid (32-byte run, no-swap marker) but
whose strip offset `1` is not a multiple of 4, so the alignment read past
the 256th byte fails on this exactly-256-byte input. -/
def c1badInput : List Nat :=
  0 :: (List.replicate 32 255 ++ buswords_noswap ++ List.replicate 215 0)

/-- A valid 260-byte no-swap input: strip offset `0`, a 4-byte payload. -/
def c1goodInput : List Nat :=
  List.replicate 32 255 ++ buswords_noswap ++ List.replicate 216 0 ++ [1, 2, 3, 4]

/-- A 258-byte swap input: strip offset `0` and a 2-byte payload, so the
final body chunk is not word-aligned. -/
def c2badInput : List Nat :=
  List.replicate 32 255 ++ buswords_swap ++ List.replicate 216 0 ++ [1, 2]

/-- A valid 260-byte swap input: strip offset `0`, a 4-byte payload. -/
def c2goodInput : List Nat :=
  List.replicate 32 255 ++ buswords_swap ++ List.replicate 216 0 ++ [9, 8, 7, 6]

/-- A 256-byte header with a 31-byte `0xff` run + marker at the front and a
32-byte `0xff` run + marker later. -/
def c4badHdr : List Nat :=
  List.replicate 31 255 ++ buswords_noswap ++ List.replicate 32 255
    ++ buswords_noswap ++ List.replicate 177 0

/-- A 256-byte header whose only candidate is a 31-byte run + marker. -/
def c4w31Hdr : List Nat :=
  List.replicate 31 255 ++ buswords_noswap ++ List.replicate 217 0

/-- A 256-byte header with a 32-byte run + no-swap marker at the front. -/
def c4w32Hdr : List Nat :=
  List.replicate 32 255 ++ buswords_noswap ++ List.replicate 216 0

/-- A valid 256-byte no-swap input ending right after the header. -/
def c6wInput : List Nat :=
  List.replicate 32 255 ++ buswords_noswap ++ List.replicate 216 0

/-- A 256-byte input whose header is valid but whose strip offset `2` is not
a multiple of 4. -/
def c8badInput : List Nat :=
  0 :: 0 :: (List.replicate 32 255 ++ buswords_noswap ++ List.replicate 214 0)

/-- A valid 256-byte swap input with strip offset `0` and no payload. -/
def c8wInput : List Nat :=
  List.replicate 32 255 ++ buswords_swap ++ List.replicate 216 0

/-- A 256-byte header with 4 metadata bytes, a 32-byte run, and the swap
marker: analysis succeeds with strip offset `4`. -/
def c9wHdr : List Nat :=
  0 :: 0 :: 0 :: 0 :: (List.replicate 32 255 ++ buswords_swap ++ List.replicate 212 0)

/-- A 256-byte header with a 32-byte run + marker at the front and a 33-byte
run + marker later (at positions 41–73 and 74–81). -/
def c10badHdr : List Nat :=
  List.replicate 32 255 ++ buswords_noswap ++ [0] ++ List.replicate 33 255
    ++ buswords_noswap ++ List.replicate 174 0

/-- A 256-byte header with 5 metadata bytes and a 40-byte `0xff` run (longer
than 32) followed by the no-swap marker at position 45. -/
def c10wHdr : List Nat :=
  List.replicate 5 0 ++ List.replicate 40 255 ++ buswords_noswap ++ List.replicate 203 0

/-! ### Properties of the header scan loop -/

/-- Soundness invariant of the scan loop: starting from a state where
`dummies` counts a run of `0xff` bytes ending just before `i`, the final
state `(i', dummies')` again satisfies `dummies' ≤ i'`, stays within the
loop range, and the `dummies'` bytes just before `i'` are all `0xff`. -/
theorem scanAux_sound (hdr : List Nat) : ∀ fuel i d, d ≤ i →
    (∀ j, i - d ≤ j → j < i → hdr.getD j 0 = 255) →
    (scanAux hdr fuel i d).2 ≤ (scanAux hdr fuel i d).1 ∧
      (scanAux hdr fuel i d).1 ≤ i + fuel ∧
      ∀ j, (scanAux hdr fuel i d).1 - (scanAux hdr fuel i d).2 ≤ j →
        j < (scanAux hdr fuel i d).1 → hdr.getD j 0 = 255 := by
  intro fuel
  induction fuel with
  | zero =>
    intro i d hd hrun
    exact ⟨hd, Nat.le_refl _, hrun⟩
  | succ fuel ih =>
    intro i d hd hrun
    by_cases hb : hdr.getD i 0 = 255
    · rw [scanAux, if_pos hb]
      have hrun1 : ∀ j, (i + 1) - (d + 1) ≤ j → j < i + 1 → hdr.getD j 0 = 255 := by
        intro j h1 h2
        rcases Nat.lt_or_ge j i with hj | hj
        · exact hrun j (by omega) hj
        · have : j = i := by omega
          simpa [this] using hb
      have := ih (i + 1) (d + 1) (by omega) hrun1
      exact ⟨this.1, by omega, this.2.2⟩
    · by_cases h32 : 32 ≤ d
      · rw [scanAux, if_neg hb, if_pos h32]
        exact ⟨hd, by omega, hrun⟩
      · rw [scanAux, if_neg hb, if_neg h32]
        have := ih (i + 1) 0 (Nat.zero_le _) (by intro j h1 h2; omega)
        exact ⟨this.1, by omega, this.2.2⟩

/-- Soundness of the whole scan: the returned `(i, dummies)` satisfies
`dummies ≤ i ≤ 248` and the `dummies` bytes just before position `i` are
all `0xff`. -/
theorem scanHdr_sound (hdr : List Nat) :
    (scanHdr hdr).2 ≤ (scanHdr hdr).1 ∧ (scanHdr hdr).1 ≤ 248 ∧
      ∀ j, (scanHdr hdr).1 - (scanHdr hdr).2 ≤ j → j < (scanHdr hdr).1 →
        hdr.getD j 0 = 255 := by
  have := scanAux_sound hdr 248 0 0 (Nat.le_refl _) (by intro j h1 h2; omega)
  exact ⟨this.1, this.2.1, this.2.2⟩

/-- If the analyzer succeeds, the strip offset is at most `216`, the 32
bytes starting at it are all `0xff`, and the 8 bytes after those equal the
marker pattern selected by the reported swap flag. -/
theorem analyze_sound (hdr : List Nat) (strip : Nat) (sw : Bool)
    (ha : analyze_xilinx_header hdr = some (strip, sw)) :
    strip ≤ 216 ∧ (∀ j, strip ≤ j → j < strip + 32 → hdr.getD j 0 = 255) ∧
      (hdr.drop (strip + 32)).take 8 = markerBytes sw := by
  have hs := scanHdr_sound hdr
  unfold analyze_xilinx_header at ha
  by_cases hlt : (scanHdr hdr).2 < 32
  · simp [hlt] at ha
  · rw [if_neg hlt] at ha
    have h32 : 32 ≤ (scanHdr hdr).2 := by omega
    have hi32 : 32 ≤ (scanHdr hdr).1 := le_trans h32 hs.1
    by_cases hns : (hdr.drop (scanHdr hdr).1).take 8 = buswords_noswap
    · rw [if_pos hns] at ha
      obtain ⟨h1, h2⟩ : (scanHdr hdr).1 - 32 = strip ∧ false = sw := by
        simpa using ha
      subst h1; subst h2
      refine ⟨by omega, ?_, ?_⟩
      · intro j hj1 hj2
        exact hs.2.2 j (by omega) (by omega)
      · have : (scanHdr hdr).1 - 32 + 32 = (scanHdr hdr).1 := by omega
        rw [this]
        exact hns
    · rw [if_neg hns] at ha
      by_cases hsw : (hdr.drop (scanHdr hdr).1).take 8 = buswords_swap
      · rw [if_pos hsw] at ha
        obtain ⟨h1, h2⟩ : (scanHdr hdr).1 - 32 = strip ∧ true = sw := by
          simpa using ha
        subst h1; subst h2
        refine ⟨by omega, ?_, ?_⟩
        · intro j hj1 hj2
          exact hs.2.2 j (by omega) (by omega)
        · have : (scanHdr hdr).1 - 32 + 32 = (scanHdr hdr).1 := by omega
          rw [this]
          exact hsw
      · rw [if_neg hsw] at ha
        exact absurd ha (by simp)

/-- Completeness of the scan loop: let `p ≤ 248` be a position preceded by
32 consecutive `0xff` bytes and holding a non-`0xff` byte (unless `p = 248`,
the end of the scan range).  If the scan is at state `(i, d)` with `i ≤ p`,
`d` a maximal `0xff` run ending just before `i`, and no break candidate
lies strictly between `i` and `p`, then the scan stops exactly at `p` with
at least 32 dummies counted. -/
theorem scanAux_reaches (hdr : List Nat) (p : Nat)
    (hp : p ≤ 248) (h32 : 32 ≤ p)
    (hrun : ∀ j, p - 32 ≤ j → j < p → hdr.getD j 0 = 255)
    (hstop : p < 248 → hdr.getD p 0 ≠ 255) :
    ∀ fuel i d, i + fuel = 248 → i ≤ p → d ≤ i →
    (∀ j, i - d ≤ j → j < i → hdr.getD j 0 = 255) →
    (d < i → hdr.getD (i - d - 1) 0 ≠ 255) →
    (∀ q, i ≤ q → q < p → ¬ isBreak hdr q) →
    (scanAux hdr fuel i d).1 = p ∧ 32 ≤ (scanAux hdr fuel i d).2 := by
  intro fuel
  induction fuel with
  | zero =>
    intro i d hfuel hip hd hruninv hmax hnb
    have hi : i = 248 := by omega
    have hpi : p = 248 := by omega
    subst hi
    have hd32 : 32 ≤ d := by
      by_contra hcon
      push_neg at hcon
      rcases Nat.lt_or_ge d 248 with hdlt | hdge
      · have hne := hmax (by omega)
        have : 248 - d - 1 < p := by omega
        have : hdr.getD (248 - d - 1) 0 = 255 := hrun _ (by omega) (by omega)
        exact hne this
      · omega
    exact ⟨by simpa [scanAux] using hpi.symm, by simpa [scanAux] using hd32⟩
  | succ fuel ih =>
    intro i d hfuel hip hd hruninv hmax hnb
    have hilt : i < 248 := by omega
    by_cases hb : hdr.getD i 0 = 255
    · rw [scanAux, if_pos hb]
      have hine : i ≠ p := by
        intro h
        exact hstop (by omega) (h ▸ hb)
      refine ih (i + 1) (d + 1) (by omega) (by omega) (by omega) ?_ ?_ ?_
      · intro j h1 h2
        rcases Nat.lt_or_ge j i with hj | hj
        · exact hruninv j (by omega) hj
        · have : j = i := by omega
          simpa [this] using hb
      · intro h
        have : i + 1 - (d + 1) - 1 = i - d - 1 := by omega
        rw [this]
        exact hmax (by omega)
      · intro q hq1 hq2
        exact hnb q (by omega) hq2
    · by_cases hd32 : 32 ≤ d
      · rw [scanAux, if_neg hb, if_pos hd32]
        refine ⟨?_, hd32⟩
        by_contra hne
        have hiltp : i < p := by
          rcases Nat.lt_or_ge i p with h | h
          · exact h
          · exact absurd (by omega : i = p) hne
        refine hnb i (Nat.le_refl _) hiltp ⟨hb, by omega, ?_⟩
        intro j hj1 hj2
        exact hruninv j (by omega) hj1
      · rw [scanAux, if_neg hb, if_neg hd32]
        have hine : i ≠ p := by
          intro h
          subst h
          rcases Nat.lt_or_ge d i with hdlt | hdge
          · have hne := hmax hdlt
            exact hne (hrun _ (by omega) (by omega))
          · omega
        refine ih (i + 1) 0 (by omega) (by omega) (by omega)
          (by intro j h1 h2; omega) ?_ ?_
        · intro _
          have : i + 1 - 0 - 1 = i := by omega
          rw [this]
          exact hb
        · intro q hq1 hq2
          exact hnb q (by omega) hq2

/-- If a position `p` of a 256-byte header is preceded by 32 consecutive
`0xff` bytes, holds one of the two marker patterns, and no break candidate
precedes it, then the analyzer succeeds with `strip = p - 32` and the swap
flag matching the marker. -/
theorem analyze_of_run (hdr : List Nat) (p : Nat) (sw : Bool)
    (hlen : hdr.length = 256)
    (h32 : 32 ≤ p)
    (hrun : ∀ j, p - 32 ≤ j → j < p → hdr.getD j 0 = 255)
    (hm : (hdr.drop p).take 8 = markerBytes sw)
    (hfirst : ∀ q, q < p → ¬ isBreak hdr q) :
    analyze_xilinx_header hdr = some (p - 32, sw) := by
  have hmlen : ((hdr.drop p).take 8).length = 8 := by
    rw [hm]
    cases sw <;> rfl
  have hp : p ≤ 248 := by
    simp only [List.length_take, List.length_drop, hlen] at hmlen
    omega
  have hplen : p < hdr.length := by omega
  have hb0 : (0 : Nat) < ((hdr.drop p).take 8).length := by rw [hmlen]; omega
  have hstop : p < 248 → hdr.getD p 0 ≠ 255 := by
    intro _
    have h0 : ((hdr.drop p).take 8).getD 0 0 ≠ 255 := by
      rw [hm]
      cases sw <;> decide
    have h1 : ((hdr.drop p).take 8).getD 0 0 = hdr.getD p 0 := by
      rw [List.getD_eq_getElem _ 0 hb0, List.getD_eq_getElem hdr 0 hplen]
      simp
    rw [← h1]
    exact h0
  have hscan := scanAux_reaches hdr p hp h32 hrun hstop 248 0 0 rfl
    (Nat.zero_le _) (Nat.le_refl _) (by intro j h1 h2; omega) (by omega)
    (by intro q h1 h2; exact hfirst q h2)
  have hi : (scanHdr hdr).1 = p := hscan.1
  have hd : 32 ≤ (scanHdr hdr).2 := hscan.2
  unfold analyze_xilinx_header
  rw [if_neg (by omega)]
  cases sw with
  | false =>
    have hm' : (hdr.drop p).take 8 = buswords_noswap := hm
    rw [hi, if_pos hm']
  | true =>
    have hm' : (hdr.drop p).take 8 = buswords_swap := hm
    have hne : (hdr.drop p).take 8 ≠ buswords_noswap := by
      rw [hm']
      decide
    rw [hi, if_neg hne, if_pos hm']

/-- If no position of the scan range is a break candidate and the last 32
bytes of the range are not all `0xff`, the scan exhausts its range with
fewer than 32 dummies counted. -/
theorem scanAux_exhausts (hdr : List Nat)
    (hnb : ∀ q, q < 248 → ¬ isBreak hdr q)
    (htail : ¬ ∀ j, 216 ≤ j → j < 248 → hdr.getD j 0 = 255) :
    ∀ fuel i d, i + fuel = 248 → d ≤ i →
    (∀ j, i - d ≤ j → j < i → hdr.getD j 0 = 255) →
    (d < i → hdr.getD (i - d - 1) 0 ≠ 255) →
    (scanAux hdr fuel i d).2 < 32 := by
  intro fuel
  induction fuel with
  | zero =>
    intro i d hfuel hd hruninv hmax
    have hi : i = 248 := by omega
    subst hi
    have hd32 : d < 32 := by
      by_contra hcon
      push_neg at hcon
      refine htail ?_
      intro j hj1 hj2
      exact hruninv j (by omega) (by omega)
    simpa [scanAux] using hd32
  | succ fuel ih =>
    intro i d hfuel hd hruninv hmax
    have hilt : i < 248 := by omega
    by_cases hb : hdr.getD i 0 = 255
    · rw [scanAux, if_pos hb]
      refine ih (i + 1) (d + 1) (by omega) (by omega) ?_ ?_
      · intro j h1 h2
        rcases Nat.lt_or_ge j i with hj | hj
        · exact hruninv j (by omega) hj
        · have : j = i := by omega
          simpa [this] using hb
      · intro h
        have : i + 1 - (d + 1) - 1 = i - d - 1 := by omega
        rw [this]
        exact hmax (by omega)
    · by_cases hd32 : 32 ≤ d
      · exact absurd ⟨hb, by omega, fun j hj1 hj2 => hruninv j (by omega) hj1⟩
          (hnb i hilt)
      · rw [scanAux, if_neg hb, if_neg hd32]
        refine ih (i + 1) 0 (by omega) (by omega) (by intro j h1 h2; omega) ?_
        intro _
        have : i + 1 - 0 - 1 = i := by omega
        rw [this]
        exact hb

/-- If no position of the scan range is a break candidate and the final 32
bytes of the range are not all `0xff`, analysis fails. -/
theorem analyze_none_of_no_break (hdr : List Nat)
    (hnb : ∀ q, q < 248 → ¬ isBreak hdr q)
    (htail : ¬ ∀ j, 216 ≤ j → j < 248 → hdr.getD j 0 = 255) :
    analyze_xilinx_header hdr = none := by
  have := scanAux_exhausts hdr hnb htail 248 0 0 rfl (Nat.le_refl _)
    (by intro j h1 h2; omega) (by omega)
  simp [analyze_xilinx_header, scanHdr, this]

/-! ### Properties of the word byte-swap -/

/-- The byte swap returns a buffer of the same length. -/
theorem xbit2bin_bswap_length : ∀ (buf : List Nat) (n : Nat),
    (xbit2bin_bswap buf n).length = buf.length := by
  suffices h : ∀ (len : Nat) (buf : List Nat) (n : Nat), buf.length = len →
      (xbit2bin_bswap buf n).length = buf.length by
    intro buf n
    exact h buf.length buf n rfl
  intro len
  induction len using Nat.strong_induction_on with
  | _ len ih =>
    intro buf n hlen
    cases n with
    | zero => rw [xbit2bin_bswap]
    | succ m =>
      cases buf with
      | nil => rfl
      | cons x a1 =>
        cases a1 with
        | nil => rfl
        | cons y a2 =>
          cases a2 with
          | nil => rfl
          | cons z a3 =>
            cases a3 with
            | nil => rfl
            | cons w rest =>
              rw [xbit2bin_bswap]
              simp only [List.length_cons]
              rw [ih rest.length (by simp at hlen; omega) rest (m + 1 - 4) rfl]

/-- The byte swap of a word-aligned prefix distributes over append: swapping
`a ++ b` for `a.length + n` bytes (with `a` word-aligned) swaps `a` whole
and continues with `n` bytes of `b`. -/
theorem xbit2bin_bswap_append : ∀ (len : Nat) (a b : List Nat) (n : Nat),
    a.length = len → len % 4 = 0 →
    xbit2bin_bswap (a ++ b) (len + n) = xbit2bin_bswap a len ++ xbit2bin_bswap b n := by
  intro len
  induction len using Nat.strong_induction_on with
  | _ len ih =>
    intro a b n hlen h4
    cases a with
    | nil =>
      simp at hlen
      subst hlen
      simp [xbit2bin_bswap]
    | cons x a1 =>
      cases a1 with
      | nil => simp at hlen; omega
      | cons y a2 =>
        cases a2 with
        | nil => simp at hlen; omega
        | cons z a3 =>
          cases a3 with
          | nil => simp at hlen; omega
          | cons w rest =>
            have hlen' : rest.length + 4 = len := by simp at hlen; omega
            have e1 : len + n = (rest.length + 3 + n) + 1 := by omega
            have e2 : len = (rest.length + 3) + 1 := by omega
            rw [List.cons_append, List.cons_append, List.cons_append,
              List.cons_append, e1, xbit2bin_bswap]
            have e3 : rest.length + 3 + n + 1 - 4 = rest.length + n := by omega
            rw [e3]
            conv_rhs => rw [e2, xbit2bin_bswap]
            have e4 : rest.length + 3 + 1 - 4 = rest.length := by omega
            rw [e4]
            rw [ih rest.length (by omega) rest b n rfl (by omega)]
            simp

/-- Swapping a word-aligned buffer twice restores it. -/
theorem xbit2bin_bswap_bswap : ∀ (len : Nat) (buf : List Nat), buf.length = len →
    len % 4 = 0 → xbit2bin_bswap (xbit2bin_bswap buf len) len = buf := by
  intro len
  induction len using Nat.strong_induction_on with
  | _ len ih =>
    intro buf hlen h4
    cases buf with
    | nil =>
      simp at hlen
      subst hlen
      rfl
    | cons x a1 =>
      cases a1 with
      | nil => simp at hlen; omega
      | cons y a2 =>
        cases a2 with
        | nil => simp at hlen; omega
        | cons z a3 =>
          cases a3 with
          | nil => simp at hlen; omega
          | cons w rest =>
            have hlen' : rest.length + 4 = len := by simp at hlen; omega
            have e2 : len = (rest.length + 3) + 1 := by omega
            have e4 : rest.length + 3 + 1 - 4 = rest.length := by omega
            rw [e2, xbit2bin_bswap, e4, xbit2bin_bswap]
            have hxl : (xbit2bin_bswap rest rest.length).length = rest.length :=
              xbit2bin_bswap_length rest rest.length
            rw [e4]
            rw [ih rest.length (by omega) rest rfl (by omega)]

/-! ### Properties of the body-copy loop -/

/-- Without swapping, the body loop copies its input verbatim, whatever the
initial buffer contents. -/
theorem bodyLoopAux_noswap : ∀ (fuel : Nat) (input buf : List Nat),
    input.length ≤ fuel → bodyLoopAux false fuel input buf = input := by
  intro fuel
  induction fuel with
  | zero =>
    intro input buf hl
    have h0 : input = [] := List.eq_nil_of_length_eq_zero (by omega)
    subst h0
    rfl
  | succ fuel ih =>
    intro input buf hl
    rw [bodyLoopAux]
    cases input with
    | nil => simp
    | cons x t =>
      simp only [List.isEmpty_cons, if_neg (by simp : ¬((false : Bool) = true)),
        Bool.false_eq_true, if_false]
      have hle : min (x :: t).length CHUNK ≤ (x :: t).length := Nat.min_le_left _ _
      have hn : ((x :: t).take (min (x :: t).length CHUNK)).length
          = min (x :: t).length CHUNK := by
        simp [List.length_take]
      rw [List.take_left' hn]
      rw [ih ((x :: t).drop (min (x :: t).length CHUNK)) _ (by
        simp only [List.length_drop]
        have h1 : 1 ≤ min (x :: t).length CHUNK := by
          simp [CHUNK, Nat.le_min]
        simp only [List.length_cons] at hl ⊢
        omega)]
      exact List.take_append_drop _ _

/-- With swapping and a word-aligned input length, the body loop produces
exactly the byte swap of the whole remaining input: every chunk boundary
falls on a word boundary, so the chunked in-place swaps compose. -/
theorem bodyLoopAux_swap : ∀ (fuel : Nat) (input buf : List Nat),
    input.length ≤ fuel → input.length % 4 = 0 →
    bodyLoopAux true fuel input buf = xbit2bin_bswap input input.length := by
  intro fuel
  induction fuel with
  | zero =>
    intro input buf hl h4
    have h0 : input = [] := List.eq_nil_of_length_eq_zero (by omega)
    subst h0
    rfl
  | succ fuel ih =>
    intro input buf hl h4
    rw [bodyLoopAux]
    cases input with
    | nil => rfl
    | cons x t =>
      simp only [List.isEmpty_cons, Bool.false_eq_true, if_false, if_true]
      have hn4 : (min (x :: t).length CHUNK) % 4 = 0 := by
        rcases Nat.le_total (x :: t).length CHUNK with h | h
        · rw [Nat.min_eq_left h]; exact h4
        · rw [Nat.min_eq_right h]; rfl
      have hle : min (x :: t).length CHUNK ≤ (x :: t).length := Nat.min_le_left _ _
      have hn : ((x :: t).take (min (x :: t).length CHUNK)).length
          = min (x :: t).length CHUNK := by
        simp [List.length_take]
      have hsplit : xbit2bin_bswap
            ((x :: t).take (min (x :: t).length CHUNK) ++ buf.drop (min (x :: t).length CHUNK))
            (min (x :: t).length CHUNK)
          = xbit2bin_bswap ((x :: t).take (min (x :: t).length CHUNK))
              (min (x :: t).length CHUNK) ++ buf.drop (min (x :: t).length CHUNK) := by
        have := xbit2bin_bswap_append (min (x :: t).length CHUNK)
          ((x :: t).take (min (x :: t).length CHUNK))
          (buf.drop (min (x :: t).length CHUNK)) 0 hn hn4
        rw [Nat.add_zero] at this
        rw [this, xbit2bin_bswap]
      rw [hsplit]
      have hswlen : (xbit2bin_bswap ((x :: t).take (min (x :: t).length CHUNK))
          (min (x :: t).length CHUNK)).length = min (x :: t).length CHUNK := by
        rw [xbit2bin_bswap_length]
        exact hn
      rw [List.take_left' hswlen]
      rw [ih ((x :: t).drop (min (x :: t).length CHUNK)) _ (by
        simp only [List.length_drop]
        have h1 : 1 ≤ min (x :: t).length CHUNK := by
          simp [CHUNK, Nat.le_min]
        simp only [List.length_cons] at hl ⊢
        omega) (by simp only [List.length_drop]; omega)]
      have hfin := xbit2bin_bswap_append (min (x :: t).length CHUNK)
        ((x :: t).take (min (x :: t).length CHUNK))
        ((x :: t).drop (min (x :: t).length CHUNK))
        ((x :: t).length - min (x :: t).length CHUNK) hn hn4
      rw [List.take_append_drop] at hfin
      have e : min (x :: t).length CHUNK + ((x :: t).length - min (x :: t).length CHUNK)
          = (x :: t).length := by omega
      rw [e] at hfin
      simp only [List.length_drop]
      exact hfin.symm

/-! ### The header stage of the transcoder -/

/-- Characterization of the header stage on a successful analysis: writing
`n := 256 - strip` and `pad := (4 - n % 4) % 4` (the number of alignment
bytes, `0` when `n` is already word-aligned), if the input can supply the
alignment bytes then the header stage emits the (possibly swapped) first
`n + pad` bytes of `input.drop strip` and leaves `input.drop (256 + pad)`
for the body loop. -/
theorem xbit2binHdr_spec (input : List Nat) (strip : Nat) (sw : Bool)
    (hlen : 256 ≤ input.length)
    (ha : analyze_xilinx_header (input.take 256) = some (strip, sw))
    (hav : 256 + (4 - (256 - strip) % 4) % 4 ≤ input.length) :
    xbit2binHdr input = some
      ((if sw then
          xbit2bin_bswap
            ((input.drop strip).take (256 - strip + (4 - (256 - strip) % 4) % 4))
            (256 - strip + (4 - (256 - strip) % 4) % 4)
        else (input.drop strip).take (256 - strip + (4 - (256 - strip) % 4) % 4)),
        sw, input.drop (256 + (4 - (256 - strip) % 4) % 4)) := by
  have hstrip : strip ≤ 216 := (analyze_sound _ _ _ ha).1
  have hdt : (input.take 256).drop strip = (input.drop strip).take (256 - strip) := by
    rw [List.drop_take]
  simp only [xbit2binHdr, MAXHDR, ha]
  rw [if_neg (by omega : ¬ input.length < 256)]
  by_cases h4 : (256 - strip) % 4 = 0
  · rw [if_pos h4]
    have hp0 : (4 - (256 - strip) % 4) % 4 = 0 := by omega
    rw [hp0, Nat.add_zero, Nat.add_zero, hdt]
  · rw [if_neg h4]
    have hp : (4 - (256 - strip) % 4) % 4 = 4 - (256 - strip) % 4 := by omega
    rw [hp] at hav
    rw [if_neg (by simp only [List.length_drop]; omega :
      ¬ (input.drop 256).length < 4 - (256 - strip) % 4)]
    have hd256 : input.drop 256 = (input.drop strip).drop (256 - strip) := by
      rw [List.drop_drop]
      congr 1
      omega
    have hhdr2 : (input.take 256).drop strip
          ++ (input.drop 256).take (4 - (256 - strip) % 4)
        = (input.drop strip).take (256 - strip + (4 - (256 - strip) % 4)) := by
      rw [hdt, hd256, List.take_add]
    rw [hhdr2, hd256]
    rw [hp]
    have hb : (input.drop strip).drop (256 - strip) = input.drop 256 := hd256.symm
    rw [hb]
    have : (input.drop 256).drop (4 - (256 - strip) % 4)
        = input.drop (256 + (4 - (256 - strip) % 4)) := by
      rw [List.drop_drop]
    rw [this]

/-- When no swap is required and the input can supply the alignment bytes,
the transcoder succeeds and copies the input from `strip` onward verbatim. -/
theorem xbit2binRun_noswap (input stale : List Nat) (strip : Nat)
    (hlen : 256 ≤ input.length)
    (ha : analyze_xilinx_header (input.take 256) = some (strip, false))
    (hav : 256 + (4 - (256 - strip) % 4) % 4 ≤ input.length) :
    xbit2binRun input stale = (true, input.drop strip) := by
  have hstrip : strip ≤ 216 := (analyze_sound _ _ _ ha).1
  have hh := xbit2binHdr_spec input strip false hlen ha hav
  simp only [xbit2binRun, hh, Bool.false_eq_true, if_false]
  rw [bodyLoop, bodyLoopAux_noswap _ _ _ (Nat.le_refl _)]
  have hsplit : input.drop (256 + (4 - (256 - strip) % 4) % 4)
      = (input.drop strip).drop (256 - strip + (4 - (256 - strip) % 4) % 4) := by
    rw [List.drop_drop]
    congr 1
    omega
  rw [hsplit, List.take_append_drop]

/-- When swapping is required and the total byte count from `strip` onward
is a multiple of 4, the transcoder succeeds and its output is the word
byte-swap of the whole input from `strip` onward. -/
theorem xbit2binRun_swap (input stale : List Nat) (strip : Nat)
    (hlen : 256 ≤ input.length)
    (ha : analyze_xilinx_header (input.take 256) = some (strip, true))
    (hmod : (input.length - strip) % 4 = 0) :
    xbit2binRun input stale
      = (true, xbit2bin_bswap (input.drop strip) (input.length - strip)) := by
  have hstrip : strip ≤ 216 := (analyze_sound _ _ _ ha).1
  have hav : 256 + (4 - (256 - strip) % 4) % 4 ≤ input.length := by omega
  have hh := xbit2binHdr_spec input strip true hlen ha hav
  simp only [xbit2binRun, hh, if_true]
  have hsplit : input.drop (256 + (4 - (256 - strip) % 4) % 4)
      = (input.drop strip).drop (256 - strip + (4 - (256 - strip) % 4) % 4) := by
    rw [List.drop_drop]
    congr 1
    omega
  have hblen : (input.drop (256 + (4 - (256 - strip) % 4) % 4)).length
      = input.length - (256 + (4 - (256 - strip) % 4) % 4) := by
    simp
  rw [bodyLoop, bodyLoopAux_swap _ _ _ (Nat.le_refl _) (by rw [hblen]; omega)]
  have htlen : ((input.drop strip).take (256 - strip + (4 - (256 - strip) % 4) % 4)).length
      = 256 - strip + (4 - (256 - strip) % 4) % 4 := by
    simp only [List.length_take, List.length_drop]
    omega
  have happ := xbit2bin_bswap_append (256 - strip + (4 - (256 - strip) % 4) % 4)
    ((input.drop strip).take (256 - strip + (4 - (256 - strip) % 4) % 4))
    ((input.drop strip).drop (256 - strip + (4 - (256 - strip) % 4) % 4))
    (input.length - (256 + (4 - (256 - strip) % 4) % 4)) htlen (by omega)
  rw [List.take_append_drop] at happ
  have hsum : 256 - strip + (4 - (256 - strip) % 4) % 4
      + (input.length - (256 + (4 - (256 - strip) % 4) % 4)) = input.length - strip := by
    omega
  rw [hsum] at happ
  rw [hblen, hsplit, ← happ]

/-! ### The claims -/

/-- Claim C1, counterexample: an input whose 256-byte header does contain a
run of 32 `0xff` bytes followed by the no-swap marker, yet the transcoder
fails (strip offset 1 leaves 255 header bytes and the exactly-256-byte input
cannot supply the alignment byte), writing nothing.  The claim asserts it
succeeds. -/
theorem C1_counterexample :
    (c1badInput.drop 1).take 32 = List.replicate 32 255 ∧
    (c1badInput.drop 33).take 8 = buswords_noswap ∧
    c1badInput.length = 256 ∧
    xbit2binRun c1badInput [] = (false, []) := by
  decide

/-- Claim C1, amended: for every input whose header analysis reports the
no-swap marker at strip offset `strip`, provided the input can supply the
`(4 - (256 - strip) % 4) % 4` word-alignment bytes, the transcoder succeeds
and the output equals the input from the start of the last 32 padding bytes
(`strip`) through end-of-input, with no byte modified. -/
theorem C1_theorem (input stale : List Nat) (strip : Nat)
    (hlen : 256 ≤ input.length)
    (ha : analyze_xilinx_header (input.take 256) = some (strip, false))
    (hav : 256 + (4 - (256 - strip) % 4) % 4 ≤ input.length) :
    xbit2binRun input stale = (true, input.drop strip) :=
  xbit2binRun_noswap input stale strip hlen ha hav

/-- Claim C1, witness: the amended theorem applied to a concrete valid
no-swap input. -/
theorem C1_witness :
    256 ≤ c1goodInput.length ∧
    analyze_xilinx_header (c1goodInput.take 256) = some (0, false) ∧
    xbit2binRun c1goodInput [] = (true, c1goodInput.drop 0) :=
  ⟨by decide, by decide, C1_theorem c1goodInput [] 0 (by decide) (by decide) (by decide)⟩

/-- Claim C2, counterexample: a valid swap-marker input with strip offset 0
and a 2-byte payload `[1, 2]`.  The transcode succeeds, but the last two
output bytes are `[0, 0]` — stale bytes of the (zero-initialized) body
buffer exposed by the byte swap of the final partial word — not the input
bytes `[1, 2]`, so the output does not equal the input with (only) every
complete word reversed. -/
theorem C2_counterexample :
    analyze_xilinx_header (c2badInput.take 256) = some (0, true) ∧
    (xbit2binRun c2badInput (List.replicate 65536 0)).1 = true ∧
    (xbit2binRun c2badInput (List.replicate 65536 0)).2.drop 256 = [0, 0] ∧
    c2badInput.drop 256 = [1, 2] := by
  decide

/-- Claim C2, amended: for every input whose header analysis reports the
swap marker at strip offset `strip`, provided the byte count from `strip`
to end-of-input is a multiple of 4 (so the alignment read succeeds and
every chunk decomposes into complete words), the transcoder succeeds and
the output is the input from `strip` onward with every 32-bit word's four
bytes reversed. -/
theorem C2_theorem (input stale : List Nat) (strip : Nat)
    (hlen : 256 ≤ input.length)
    (ha : analyze_xilinx_header (input.take 256) = some (strip, true))
    (hmod : (input.length - strip) % 4 = 0) :
    xbit2binRun input stale
      = (true, xbit2bin_bswap (input.drop strip) (input.length - strip)) :=
  xbit2binRun_swap input stale strip hlen ha hmod

/-- Claim C2, witness: the amended theorem applied to a concrete valid
swap input of word-aligned length. -/
theorem C2_witness :
    256 ≤ c2goodInput.length ∧ (c2goodInput.length - 0) % 4 = 0 ∧
    xbit2binRun c2goodInput []
      = (true, xbit2bin_bswap (c2goodInput.drop 0) (c2goodInput.length - 0)) :=
  ⟨by decide, by decide, C2_theorem c2goodInput [] 0 (by decide) (by decide) (by decide)⟩

/-- Claim C3, code bug: on a 6-byte read with swap required, the loop bound
`i * sizeof(uint32_t) < n` of `xbit2bin_bswap` processes `⌈6/4⌉ = 2` words,
not `⌊6/4⌋ = 1`: the second swap pulls buffer bytes 6 and 7 (stale, here 0)
into output positions 4 and 5, so the trailing two bytes are NOT the input
bytes `5, 6` passed through unmodified — the function's own comment
("byte-order swap buffer of n bytes") and the spec's trailing-byte rule are
both violated. -/
theorem C3_theorem :
    bodyLoop true [1, 2, 3, 4, 5, 6] (List.replicate 65536 0) = [4, 3, 2, 1, 0, 0] ∧
    xbit2bin_bswap [1, 2, 3, 4, 5, 6, 7, 8] 6 = [4, 3, 2, 1, 8, 7, 6, 5] := by
  decide

/-- Claim C4, counterexample: a 256-byte header holding a run of exactly 31
`0xff` bytes (positions 0–30; position 31 is the non-`0xff` first marker
byte) immediately followed by a valid marker — yet analysis does NOT fail:
a later 32-byte run + marker (positions 39–70, 71–78) makes it succeed. -/
theorem C4_counterexample :
    c4badHdr.take 31 = List.replicate 31 255 ∧
    c4badHdr.getD 31 0 ≠ 255 ∧
    (c4badHdr.drop 31).take 8 = buswords_noswap ∧
    analyze_xilinx_header c4badHdr = some (39, false) := by
  decide

/-- Claim C4, amended: restricted to headers where the described run is the
only synchronization candidate.  (1) If a header contains a run of exactly
31 `0xff` bytes followed by a valid marker, but no position of the scan
range is preceded by 32 consecutive `0xff` bytes and the final 32 bytes of
the range are not all `0xff`, analysis fails.  (2) If position `m` carries
a valid marker preceded by (at least) 32 `0xff` bytes and no earlier
position is a break candidate, analysis succeeds with strip offset
`m - 32`. -/
theorem C4_theorem (hdr1 hdr2 : List Nat) (r m : Nat) (sw1 sw2 : Bool) :
    (hdr1.length = 256 →
      (∀ j < 31, hdr1.getD (r + j) 0 = 255) →
      (r = 0 ∨ hdr1.getD (r - 1) 0 ≠ 255) →
      (hdr1.drop (r + 31)).take 8 = markerBytes sw1 →
      (∀ q < 248, ¬ isBreak hdr1 q) →
      (¬ ∀ j < 248, 216 ≤ j → hdr1.getD j 0 = 255) →
      analyze_xilinx_header hdr1 = none) ∧
    (hdr2.length = 256 →
      32 ≤ m →
      (∀ j < m, m - 32 ≤ j → hdr2.getD j 0 = 255) →
      (hdr2.drop m).take 8 = markerBytes sw2 →
      (∀ q < m, ¬ isBreak hdr2 q) →
      analyze_xilinx_header hdr2 = some (m - 32, sw2)) := by
  constructor
  · intro _ _ _ _ hnb htail
    refine analyze_none_of_no_break hdr1 hnb ?_
    intro hall
    exact htail fun j hj1 hj2 => hall j hj2 hj1
  · intro hlen h32 hrun hm hfirst
    exact analyze_of_run hdr2 m sw2 hlen h32 (fun j hj1 hj2 => hrun j hj2 hj1) hm hfirst

/-- Claim C4, witness: part (1) at a header whose only candidate is a
31-byte run + marker (rejected), part (2) at a header with a 32-byte run +
marker at the front (accepted with strip offset `32 - 32 = 0`). -/
theorem C4_witness :
    analyze_xilinx_header c4w31Hdr = none ∧
    analyze_xilinx_header c4w32Hdr = some (0, false) :=
  ⟨(C4_theorem c4w31Hdr c4w32Hdr 0 32 false false).1 (by decide) (by decide) (by decide)
      (by decide) (by decide) (by decide),
   (C4_theorem c4w31Hdr c4w32Hdr 0 32 false false).2 (by decide) (by decide) (by decide)
      (by decide) (by decide)⟩

/-- Claim C5: if the header read comes up short (input shorter than 256
bytes) or header analysis fails, the transcoder fails and zero bytes have
been written to the output. -/
theorem C5_theorem (input stale : List Nat)
    (h : input.length < 256 ∨ analyze_xilinx_header (input.take 256) = none) :
    xbit2binRun input stale = (false, []) := by
  rcases h with h | h
  · simp only [xbit2binRun, xbit2binHdr, MAXHDR]
    rw [if_pos h]
  · simp only [xbit2binRun, xbit2binHdr, MAXHDR, h]
    by_cases hl : input.length < 256
    · rw [if_pos hl]
    · rw [if_neg hl]

/-- Claim C5, witness: the empty input is shorter than 256 bytes. -/
theorem C5_witness : xbit2binRun [] [] = (false, []) :=
  C5_theorem [] [] (Or.inl (by decide))

/-- Claim C6: whenever the transcoder reaches the header-emission step, the
emitted header byte count is a multiple of 4, so the in-place byte swap
covers it in complete 32-bit words and the first output byte is
word-aligned. -/
theorem C6_theorem (input : List Nat) (h : List Nat) (sw : Bool) (body : List Nat)
    (hh : xbit2binHdr input = some (h, sw, body)) : h.length % 4 = 0 := by
  simp only [xbit2binHdr, MAXHDR] at hh
  by_cases hl : input.length < 256
  · rw [if_pos hl] at hh
    exact absurd hh (by simp)
  · rw [if_neg hl] at hh
    cases hae : analyze_xilinx_header (input.take 256) with
    | none =>
      rw [hae] at hh
      exact absurd hh (by simp)
    | some p =>
      obtain ⟨strip, sw0⟩ := p
      rw [hae] at hh
      simp only at hh
      by_cases h4 : (256 - strip) % 4 = 0
      · rw [if_pos h4] at hh
        simp only [Option.some.injEq, Prod.mk.injEq] at hh
        obtain ⟨h1, -, -⟩ := hh
        subst h1
        cases sw0 <;>
          simp only [if_true, if_false, Bool.false_eq_true, xbit2bin_bswap_length,
            List.length_drop, List.length_take] <;>
          omega
      · rw [if_neg h4] at hh
        by_cases hrl : (input.drop 256).length < 4 - (256 - strip) % 4
        · rw [if_pos hrl] at hh
          exact absurd hh (by simp)
        · rw [if_neg hrl] at hh
          simp only [Option.some.injEq, Prod.mk.injEq] at hh
          obtain ⟨h1, -, -⟩ := hh
          subst h1
          simp only [List.length_drop] at hrl
          cases sw0 <;>
            simp only [if_true, if_false, Bool.false_eq_true, xbit2bin_bswap_length,
              List.length_append, List.length_drop, List.length_take] <;>
            omega

/-- Claim C6, witness: the emitted header of a concrete valid 256-byte
input has word-aligned length. -/
theorem C6_witness : ((c6wInput.take 256).drop 0).length % 4 = 0 :=
  C6_theorem c6wInput ((c6wInput.take 256).drop 0) false [] (by decide)

/-- Claim C7: the 32-bit word byte swap is an involution on buffers whose
length is a multiple of 4. -/
theorem C7_theorem (buf : List Nat) (h : buf.length % 4 = 0) :
    xbit2bin_bswap (xbit2bin_bswap buf buf.length) buf.length = buf :=
  xbit2bin_bswap_bswap buf.length buf rfl h

/-- Claim C7, witness: the involution at a concrete 8-byte buffer. -/
theorem C7_witness :
    ([1, 2, 3, 4, 5, 6, 7, 8] : List Nat).length % 4 = 0 ∧
    xbit2bin_bswap
        (xbit2bin_bswap [1, 2, 3, 4, 5, 6, 7, 8]
          ([1, 2, 3, 4, 5, 6, 7, 8] : List Nat).length)
        ([1, 2, 3, 4, 5, 6, 7, 8] : List Nat).length
      = [1, 2, 3, 4, 5, 6, 7, 8] :=
  ⟨by decide, C7_theorem [1, 2, 3, 4, 5, 6, 7, 8] (by decide)⟩

/-- Claim C8, counterexample: an exactly-256-byte input whose header
analysis succeeds (strip offset 2), yet the transcoder fails — the
alignment step needs 2 more input bytes and the stream is exhausted.  The
claim asserts every exactly-256-byte input with successful analysis
transcodes successfully. -/
theorem C8_counterexample :
    c8badInput.length = 256 ∧
    analyze_xilinx_header c8badInput = some (2, false) ∧
    xbit2binRun c8badInput [] = (false, []) := by
  decide

/-- Claim C8, amended: for every input of exactly 256 bytes whose header
analysis succeeds with a strip offset that is a multiple of 4 (so no
alignment bytes are needed), the transcoder succeeds and the output equals
exactly the stripped (and, if required, word-swapped) header bytes. -/
theorem C8_theorem (input stale : List Nat) (strip : Nat) (sw : Bool)
    (hlen : input.length = 256)
    (ha : analyze_xilinx_header input = some (strip, sw))
    (hmod : strip % 4 = 0) :
    xbit2binRun input stale
      = (true, if sw then xbit2bin_bswap (input.drop strip) (256 - strip)
               else input.drop strip) := by
  have htk : input.take 256 = input := by
    rw [← hlen]
    exact List.take_length input
  have ha' : analyze_xilinx_header (input.take 256) = some (strip, sw) := by
    rw [htk]
    exact ha
  have hstrip : strip ≤ 216 := (analyze_sound input strip sw ha).1
  cases sw with
  | false =>
    rw [if_neg (by simp)]
    exact xbit2binRun_noswap input stale strip (by omega) ha' (by omega)
  | true =>
    rw [if_pos rfl]
    have := xbit2binRun_swap input stale strip (by omega) ha' (by omega)
    rw [hlen] at this
    exact this

/-- Claim C8, witness: the amended theorem at a concrete exactly-256-byte
swap input with strip offset 0. -/
theorem C8_witness :
    xbit2binRun c8wInput []
      = (true, if true then xbit2bin_bswap (c8wInput.drop 0) (256 - 0)
               else c8wInput.drop 0) :=
  C8_theorem c8wInput [] 0 true (by decide) (by decide) (by decide)

/-- Claim C9: whenever analysis of a 256-byte header succeeds, the strip
offset is at most 216 (so every scanned index, through `strip + 39`, lies
inside the buffer), the 32 bytes from `strip` on are all `0xff`, and the
8 bytes after them equal the marker constant selected by the swap flag. -/
theorem C9_theorem (hdr : List Nat) (strip : Nat) (sw : Bool)
    (hlen : hdr.length = 256)
    (ha : analyze_xilinx_header hdr = some (strip, sw)) :
    strip ≤ 216 ∧ strip + 40 ≤ hdr.length ∧
    (hdr.drop strip).take 32 = List.replicate 32 255 ∧
    (hdr.drop (strip + 32)).take 8 = markerBytes sw := by
  obtain ⟨h1, h2, h3⟩ := analyze_sound hdr strip sw ha
  refine ⟨h1, by omega, ?_, h3⟩
  rw [List.eq_replicate_iff]
  constructor
  · simp only [List.length_take, List.length_drop, hlen]
    omega
  · intro b hb
    rw [List.mem_iff_getElem] at hb
    obtain ⟨i, hi, hbi⟩ := hb
    have hi32 : i < 32 := by
      simp only [List.length_take, List.length_drop, hlen] at hi
      omega
    have hb2 : strip + i < hdr.length := by omega
    have hel : ((hdr.drop strip).take 32)[i] = hdr.getD (strip + i) 0 := by
      rw [List.getD_eq_getElem hdr 0 hb2]
      simp
    rw [← hbi, hel]
    exact h2 (strip + i) (by omega) (by omega)

/-- Claim C9, witness: the soundness facts at a concrete header accepted
with strip offset 4 and the swap marker. -/
theorem C9_witness :
    (4 : Nat) ≤ 216 ∧ 4 + 40 ≤ c9wHdr.length ∧
    (c9wHdr.drop 4).take 32 = List.replicate 32 255 ∧
    (c9wHdr.drop (4 + 32)).take 8 = markerBytes true :=
  C9_theorem c9wHdr 4 true (by decide) (by decide)

/-- Claim C10, counterexample: a 256-byte header containing a run of
`k = 33 > 32` consecutive `0xff` bytes (positions 41–73, bounded by
non-`0xff` bytes) immediately followed by a recognized marker at 74 — yet
successful analysis returns strip offset 0 (from the earlier 32-byte run at
the front), not `74 - 32 = 42` as the claim predicts. -/
theorem C10_counterexample :
    (c10badHdr.drop 41).take 33 = List.replicate 33 255 ∧
    c10badHdr.getD 40 0 ≠ 255 ∧
    c10badHdr.getD 74 0 ≠ 255 ∧
    (c10badHdr.drop 74).take 8 = buswords_noswap ∧
    analyze_xilinx_header c10badHdr = some (0, false) ∧
    (0 : Nat) ≠ 74 - 32 := by
  decide

/-- Claim C10, amended: for a 256-byte header containing a run of `k > 32`
consecutive `0xff` bytes starting at `s` and immediately followed by a
recognized marker, provided no earlier position is a break candidate (the
run is the scan's first candidate), analysis succeeds with strip offset
`s + k - 32`: exactly the last 32 padding bytes are retained and the
earlier `k - 32` padding bytes are discarded with the metadata. -/
theorem C10_theorem (hdr : List Nat) (s k : Nat) (sw : Bool)
    (hlen : hdr.length = 256)
    (hk : 32 < k)
    (hrun : ∀ j < k, hdr.getD (s + j) 0 = 255)
    (hm : (hdr.drop (s + k)).take 8 = markerBytes sw)
    (hfirst : ∀ q < s + k, ¬ isBreak hdr q) :
    analyze_xilinx_header hdr = some (s + k - 32, sw) := by
  refine analyze_of_run hdr (s + k) sw hlen (by omega) ?_ hm hfirst
  intro j hj1 hj2
  have he : j = s + (j - s) := by omega
  rw [he]
  exact hrun (j - s) (by omega)

/-- Claim C10, witness: the amended theorem at a concrete header with a
40-byte run starting at 5 and the marker at 45; the strip offset is 13. -/
theorem C10_witness : analyze_xilinx_header c10wHdr = some (5 + 40 - 32, false) :=
  C10_theorem c10wHdr 5 40 false (by decide) (by decide) (by decide) (by decide) (by decide)

